import Mathlib

/-!
Shallow embedding of the rustybgp daemon RIB core (src/daemon/src/main.rs):
the data model (Family, Nlri, Attribute, PathAttr, Source, Path, Destination,
Table), the table operations (insert, remove, clear, broadcast), the peer
accepted-route counter (Peer::update_accepted) and the outbound attribute
rewriter (update_attrs).

Modelling conventions:
- Rust HashMaps are modelled as insertion-ordered association lists with
  unique keys (lookup, replace-first and remove-first helpers below).
- The unbounded mpsc sender of a peer is modelled as the list of messages
  it has received so far; a channel send appends to that list.
- u64 arithmetic is carried out on Nat with explicit reduction mod 2^64
  where the Rust code can wrap.
- IP addresses are opaque identifiers: only equality on them is used by the
  modelled code, so they are modelled as Nat.
- Path.timestamp (SystemTime::now) and Path.as_number (always 0 at
  construction) do not influence any modelled operation and are omitted.
-/

namespace RustyBgp

/-- BGP address family, `proto::bgp::Family`. -/
inductive Family where
  | ipv4Uc : Family
  | ipv6Uc : Family
  | unknown : Nat → Family
deriving DecidableEq, Repr

/-- IP addresses are used by the modelled code only through equality. -/
abbrev Addr := Nat

/-- `proto::bgp::IpNet`: an address plus a mask length. -/
structure IpNet where
  addr : Addr
  mask : Nat
deriving DecidableEq, Repr

/-- `proto::bgp::Nlri`: the single concrete variant wraps an `IpNet`. -/
inductive Nlri where
  | ip : IpNet → Nlri
deriving DecidableEq, Repr

/-- Modelled from the spec: `proto::bgp::Segment` (the proto crate is not in
src/). A segment of an AS path: a type tag and an ordered list of AS
numbers; AS_SEQUENCE is type 2 as on the wire. -/
structure Segment where
  segmentType : Nat
  number : List Nat
deriving DecidableEq, Repr

/-- Modelled from the spec: `Segment::TYPE_SEQ`, the AS_SEQUENCE tag. -/
def Segment.TYPE_SEQ : Nat := 2

/-- Modelled from the spec: `Segment::as_len` used by `Path::get_as_len`;
the spec describes the AS-path length as the sum of segment lengths. -/
def Segment.as_len (s : Segment) : Nat := s.number.length

/-- `proto::bgp::Attribute`: the variants handled by the modelled code. -/
inductive Attribute where
  | origin : Nat → Attribute
  | asPath : List Segment → Attribute
  | nexthop : Addr → Attribute
  | multiExitDesc : Nat → Attribute
  | localPref : Nat → Attribute
  | community : List Nat → Attribute
  | mpReach : Family → Addr → List Nlri → Attribute
deriving DecidableEq, Repr

/-- Modelled from the spec: `Attribute::attr()`, the attribute-type code of
each variant (the standard BGP codes). -/
def Attribute.attr : Attribute → Nat
  | .origin _ => 1
  | .asPath _ => 2
  | .nexthop _ => 3
  | .multiExitDesc _ => 4
  | .localPref _ => 5
  | .community _ => 8
  | .mpReach _ _ _ => 14

/-- Modelled from the spec: `Attribute::AS_PATH` type code. -/
def Attribute.AS_PATH : Nat := 2

/-- Modelled from the spec: `Attribute::LOCAL_PREF` type code. -/
def Attribute.LOCAL_PREF : Nat := 5

/-- Modelled from the spec: `Attribute::DEFAULT_LOCAL_PREF`. -/
def Attribute.DEFAULT_LOCAL_PREF : Nat := 100

/-- Modelled from the spec: `Attribute::is_transitive()`. Per the spec the
rewriter drops non-transitive attributes but still handles MED explicitly
on EBGP, so MED passes this filter; MP_REACH is non-transitive. -/
def Attribute.is_transitive : Attribute → Bool
  | .mpReach _ _ _ => false
  | _ => true

/-- `PathAttr`: an immutable bag of attributes. -/
structure PathAttr where
  entry : List Attribute
deriving DecidableEq, Repr

/-- `Source`: identity of the origin of a path. -/
structure Source where
  address : Addr
  ibgp : Bool
  localAs : Nat
  localAddr : Addr
deriving DecidableEq, Repr

/-- `Path`: a route from one source (timestamp and as_number omitted, see
module comment). -/
structure Path where
  source : Source
  nexthop : Addr
  attrs : PathAttr
deriving DecidableEq, Repr

/-- `Path::new`. -/
def Path.new (source : Source) (nexthop : Addr) (attrs : PathAttr) : Path :=
  { source := source, nexthop := nexthop, attrs := attrs }

/-- `Path::get_local_preference`: first LocalPref attribute, default 100. -/
def Path.get_local_preference (p : Path) : Nat :=
  go p.attrs.entry
where
  go : List Attribute → Nat
    | [] => 100
    | .localPref preference :: _ => preference
    | _ :: rest => go rest

/-- `Path::get_as_len`: segment-length sum of the first AsPath attribute,
0 when absent. -/
def Path.get_as_len (p : Path) : Nat :=
  go p.attrs.entry
where
  go : List Attribute → Nat
    | [] => 0
    | .asPath segments :: _ => (segments.map Segment.as_len).sum
    | _ :: rest => go rest

/-- `Path::get_origin`: first Origin attribute, 0 when absent. -/
def Path.get_origin (p : Path) : Nat :=
  go p.attrs.entry
where
  go : List Attribute → Nat
    | [] => 0
    | .origin origin :: _ => origin
    | _ :: rest => go rest

/-- `Path::get_med`: first MultiExitDesc attribute, 0 when absent. -/
def Path.get_med (p : Path) : Nat :=
  go p.attrs.entry
where
  go : List Attribute → Nat
    | [] => 0
    | .multiExitDesc descriptor :: _ => descriptor
    | _ :: rest => go rest

/-- `Destination`: a prefix together with its ordered path list. -/
structure Destination where
  net : Nlri
  entry : List Path
deriving DecidableEq, Repr

/-- `TableUpdate`. -/
inductive TableUpdate where
  | newBest : Nlri → Addr → PathAttr → Source → TableUpdate
  | withdrawn : Nlri → Source → TableUpdate
deriving DecidableEq, Repr

/-- Lookup in an insertion-ordered association list (`HashMap::get`). -/
def alistGet {κ α : Type} [DecidableEq κ] : List (κ × α) → κ → Option α
  | [], _ => none
  | (k, v) :: rest, key => if k = key then some v else alistGet rest key

/-- Replace the value bound to a key, or append the binding when the key is
absent (`HashMap::insert` under unique keys). -/
def alistSet {κ α : Type} [DecidableEq κ] : List (κ × α) → κ → α → List (κ × α)
  | [], key, v => [(key, v)]
  | (k, w) :: rest, key, v =>
    if k = key then (key, v) :: rest else (k, w) :: alistSet rest key v

/-- Drop the binding of a key (`HashMap::remove` under unique keys). -/
def alistErase {κ α : Type} [DecidableEq κ] : List (κ × α) → κ → List (κ × α)
  | [], _ => []
  | (k, v) :: rest, key => if k = key then rest else (k, v) :: alistErase rest key

/-- The `for i in 0..entry.len()` loop of insert/remove/clear: drop the first
path whose `source.address` matches, reporting the index it occupied. -/
def removeSourcePath (addr : Addr) : List Path → List Path × Option Nat
  | [] => ([], none)
  | p :: rest =>
    if p.source.address = addr then (rest, some 0)
    else
      let r := removeSourcePath addr rest
      (p :: r.1, r.2.map (· + 1))

/-- The best-path scan of `Table::insert` (main.rs lines 407-431): `idx`
starts at the list length and the loop breaks at the first entry against
which one of the four comparisons fires for the candidate `b`. -/
def bestInsertIdx (b : Path) : List Path → Nat
  | [] => 0
  | a :: rest =>
    if b.get_local_preference > a.get_local_preference then 0
    else if b.get_as_len < a.get_as_len then 0
    else if b.get_origin < a.get_origin then 0
    else if b.get_med < a.get_med then 0
    else bestInsertIdx b rest + 1

/-- `Vec::insert` at an index that is at most the length. -/
def insertAt {α : Type} : Nat → α → List α → List α
  | 0, b, l => b :: l
  | _ + 1, b, [] => [b]
  | n + 1, b, a :: l => a :: insertAt n b l

/-- The RIB, `Table`. The unbounded sender of each active peer is modelled
as the list of updates it has received. -/
structure Table where
  localSource : Source
  disableBestPathSelection : Bool
  master : List (Family × List (Nlri × Destination))
  activePeers : List (Addr × (List TableUpdate × Source))
deriving DecidableEq, Repr

/-- `Table::new` (with address 0 standing for the unspecified address). -/
def Table.new : Table :=
  { localSource := { address := 0, ibgp := false, localAs := 0, localAddr := 0 }
    disableBestPathSelection := false
    master := []
    activePeers := [] }

/-- `Table::insert`: replace any prior path of the same source address,
pick the insertion index by the best-path scan (or 0 in collector mode),
and report a NewBest update built from the resulting head entry. -/
def Table.insert (t : Table) (family : Family) (net : Nlri) (source : Source)
    (nexthop : Addr) (attrs : PathAttr) : (Option TableUpdate × Bool) × Table :=
  let tbl := (alistGet t.master family).getD []
  match alistGet tbl net with
  | some d =>
    let rm := removeSourcePath source.address d.entry
    let replaced := rm.2.isSome
    let b := Path.new source nexthop attrs
    let idx := if t.disableBestPathSelection then 0 else bestInsertIdx b rm.1
    let entry2 := insertAt idx b rm.1
    let newBest : Bool := decide (rm.2 = some 0) || decide (idx = 0)
    let master2 := alistSet t.master family (alistSet tbl net { d with entry := entry2 })
    let hd := entry2.headD b
    let upd :=
      if t.disableBestPathSelection = false ∧ newBest = true then
        some (TableUpdate.newBest net nexthop hd.attrs hd.source)
      else none
    ((upd, !replaced), { t with master := master2 })
  | none =>
    let b := Path.new source nexthop attrs
    let master2 := alistSet t.master family (alistSet tbl net { net := net, entry := [b] })
    let upd :=
      if t.disableBestPathSelection = false then
        some (TableUpdate.newBest net nexthop attrs source)
      else none
    ((upd, true), { t with master := master2 })

/-- `Table::remove`: drop the path of the given source address if present;
delete the destination and report Withdrawn when it empties, report a
NewBest of the new head when index 0 was removed. -/
def Table.remove (t : Table) (family : Family) (net : Nlri) (source : Source) :
    (Option TableUpdate × Bool) × Table :=
  match alistGet t.master family with
  | none => ((none, false), t)
  | some tbl =>
    match alistGet tbl net with
    | none => ((none, false), t)
    | some d =>
      match removeSourcePath source.address d.entry with
      | (_, none) => ((none, false), t)
      | (entry2, some i) =>
        match entry2 with
        | [] =>
          let t2 := { t with master := alistSet t.master family (alistErase tbl net) }
          ((some (TableUpdate.withdrawn net source), true), t2)
        | hd :: rest =>
          let master2 :=
            alistSet t.master family (alistSet tbl net { d with entry := hd :: rest })
          let t2 := { t with master := master2 }
          if i = 0 then
            ((some (TableUpdate.newBest net hd.nexthop hd.attrs hd.source), true), t2)
          else ((none, true), t2)

/-- The per-destination body of the first phase of `Table::clear`: remove
the first path of the cleared source, and produce the update the loop
pushes (Withdrawn when the entry list empties, NewBest of the new head when
index 0 was removed; note the code attaches the cleared source, not the new
head's source, to that NewBest). -/
def clearDest (source : Source) (n : Nlri) (d : Destination) :
    Destination × Option TableUpdate :=
  match removeSourcePath source.address d.entry with
  | (_, none) => (d, none)
  | (entry2, some i) =>
    let d2 := { d with entry := entry2 }
    match entry2 with
    | [] => (d2, some (TableUpdate.withdrawn n source))
    | hd :: _ =>
      if i = 0 then (d2, some (TableUpdate.newBest n hd.nexthop hd.attrs source))
      else (d2, none)

/-- `Table::clear`: phase one walks every family table in order and every
destination in order, removing the cleared source's path and collecting
updates; phase two deletes the destinations whose entry list is empty. -/
def Table.clear (t : Table) (source : Source) : List TableUpdate × Table :=
  let updates :=
    t.master.flatMap fun ft => ft.2.filterMap fun nd => (clearDest source nd.1 nd.2).2
  let master2 :=
    t.master.map fun ft =>
      (ft.1,
        (ft.2.map fun nd => (nd.1, (clearDest source nd.1 nd.2).1)).filter
          fun nd => !nd.2.entry.isEmpty)
  (updates, { t with master := master2 })

/-- `Table::broadcast`: append the update to the channel of every active
peer other than the originator, suppressing IBGP-to-IBGP fan-out. -/
def Table.broadcast (t : Table) (frm : Source) (msg : TableUpdate) : Table :=
  { t with
    activePeers :=
      t.activePeers.map fun e =>
        if e.1 ≠ frm.address ∧ ¬(frm.ibgp = true ∧ e.2.2.ibgp = true) then
          (e.1, (e.2.1 ++ [msg], e.2.2))
        else e }

/-- 2^64, the u64 wrap-around modulus. -/
def U64MOD : Nat := 2 ^ 64

/-- Wrapping u64 addition (`*v += delta as u64` in release semantics). -/
def u64Add (a b : Nat) : Nat := (a + b) % U64MOD

/-- Wrapping u64 subtraction (`*v -= delta.abs() as u64` in release
semantics). -/
def u64Sub (a b : Nat) : Nat := (a + (U64MOD - b % U64MOD)) % U64MOD

/-- The peer record, reduced to the per-family accepted-route counters; the
remaining fields (timers, counters, capabilities, state) play no part in
the operations verified here. -/
structure Peer where
  accepted : List (Family × Nat)
deriving DecidableEq, Repr

/-- `Peer::update_accepted` (main.rs lines 778-794). -/
def Peer.update_accepted (p : Peer) (family : Family) (delta : Int) : Peer :=
  match alistGet p.accepted family with
  | some v =>
    if delta > 0 then { p with accepted := alistSet p.accepted family (u64Add v delta.toNat) }
    else { p with accepted := alistSet p.accepted family (u64Sub v delta.natAbs) }
  | none =>
    if delta > 0 then { p with accepted := p.accepted ++ [(family, delta.toNat)] }
    else p

/-- The EBGP AS-path rewrite inside `update_attrs` (main.rs lines
2161-2190): the cloned segments are reversed during processing
(`segments.insert(0, ...)` per segment), then the local AS is prepended
either into the leading AS_SEQUENCE or as a fresh segment. -/
def ebgpAsPath (localAs : Nat) (segs : List Segment) : Attribute :=
  match segs.reverse with
  | [] => .asPath [⟨Segment.TYPE_SEQ, [localAs]⟩]
  | s0 :: rest =>
    if s0.segmentType ≠ Segment.TYPE_SEQ ∨ s0.number.length = 255 then
      .asPath (⟨Segment.TYPE_SEQ, [localAs]⟩ :: s0 :: rest)
    else .asPath (⟨s0.segmentType, localAs :: s0.number⟩ :: rest)

/-- `update_attrs` (main.rs lines 2141-2243): split the stored attributes
into the kept list `v` and the appended list `n`, tracking the seen
attribute-type codes. -/
def update_attrs (is_ibgp : Bool) (is_mp : Bool) (local_as : Nat) (nlri : Nlri)
    (original_nexthop : Addr) (local_addr : Addr) (attrs : List Attribute) :
    List Attribute × List Attribute :=
  let step := fun (acc : List Nat × List Attribute × List Attribute) (attr : Attribute) =>
    let seen := attr.attr :: acc.1
    if attr.is_transitive = false then (seen, acc.2.1, acc.2.2)
    else if is_ibgp = false then
      match attr with
      | .asPath segs => (seen, acc.2.1, acc.2.2 ++ [ebgpAsPath local_as segs])
      | .multiExitDesc _ => (seen, acc.2.1, acc.2.2)
      | _ => (seen, acc.2.1 ++ [attr], acc.2.2)
    else (seen, acc.2.1 ++ [attr], acc.2.2)
  let folded := attrs.foldl step ([], [], [])
  let seen := folded.1
  let v := folded.2.1
  let nexthop := if is_ibgp then original_nexthop else local_addr
  let n :=
    if is_mp then folded.2.2 ++ [.mpReach Family.ipv6Uc nexthop [nlri]]
    else folded.2.2 ++ [.nexthop nexthop]
  let n :=
    if seen.contains Attribute.AS_PATH then n
    else if is_ibgp then n ++ [.asPath []]
    else n ++ [.asPath [⟨Segment.TYPE_SEQ, [local_as]⟩]]
  let n :=
    if seen.contains Attribute.LOCAL_PREF then n
    else if is_ibgp then n ++ [.localPref Attribute.DEFAULT_LOCAL_PREF]
    else n
  (v, n)

/-! Derived views and spec-side definitions used to state the claims. -/

/-- The entry list of the destination stored for a family and prefix
(empty when the destination is absent). -/
def entryOf (t : Table) (f : Family) (n : Nlri) : List Path :=
  match alistGet ((alistGet t.master f).getD []) n with
  | none => []
  | some d => d.entry

/-- Whether an attribute is a LocalPref. -/
def isLocalPrefA : Attribute → Bool
  | .localPref _ => true
  | _ => false

/-- Whether an attribute is an Origin. -/
def isOriginA : Attribute → Bool
  | .origin _ => true
  | _ => false

/-- Whether an attribute is a MultiExitDesc. -/
def isMedA : Attribute → Bool
  | .multiExitDesc _ => true
  | _ => false

/-- Spec-side reading of the LocalPref criterion: the value of the path's
LocalPref attribute, with default 100 when the attribute is absent. -/
def specLocalPref (p : Path) : Nat :=
  match p.attrs.entry.filterMap (fun a => match a with | .localPref v => some v | _ => none) with
  | [] => 100
  | v :: _ => v

/-- Spec-side reading of the AS-path length criterion: the sum of the
segment lengths of the path's AS-path attribute (0 when absent). -/
def specAsLen (p : Path) : Nat :=
  match p.attrs.entry.filterMap
      (fun a => match a with | .asPath segs => some segs | _ => none) with
  | [] => 0
  | segs :: _ => (segs.map (fun s => s.number.length)).sum

/-- Spec-side reading of the Origin criterion (0 when absent). -/
def specOrigin (p : Path) : Nat :=
  match p.attrs.entry.filterMap (fun a => match a with | .origin v => some v | _ => none) with
  | [] => 0
  | v :: _ => v

/-- Spec-side reading of the MED criterion (0 when absent). -/
def specMed (p : Path) : Nat :=
  match p.attrs.entry.filterMap
      (fun a => match a with | .multiExitDesc v => some v | _ => none) with
  | [] => 0
  | v :: _ => v

/-- The claim's notion of candidate B strictly beating an existing entry A:
the comparisons are tried in order and the first strict winner decides, so
B beats A exactly when one of the four criteria favours B. -/
def specBeats (b a : Path) : Prop :=
  specLocalPref b > specLocalPref a ∨ specAsLen b < specAsLen a ∨
    specOrigin b < specOrigin a ∨ specMed b < specMed a

instance (b a : Path) : Decidable (specBeats b a) := by
  unfold specBeats; infer_instance

/-- The ordered comparison chain of spec section 4.2 read as a preference
order: b is at least as good as a when the first criterion that
distinguishes them favours b (higher LocalPref, then shorter AS-path
length, then lower Origin, then lower MED). -/
def specChainGe (b a : Path) : Prop :=
  specLocalPref b > specLocalPref a ∨
    (specLocalPref b = specLocalPref a ∧
      (specAsLen b < specAsLen a ∨
        (specAsLen b = specAsLen a ∧
          (specOrigin b < specOrigin a ∨
            (specOrigin b = specOrigin a ∧ specMed b ≤ specMed a)))))

instance (b a : Path) : Decidable (specChainGe b a) := by
  unfold specChainGe; infer_instance

/-- The index at which the candidate path lands inside `Table::insert`
(0 when the destination is new or best-path selection is disabled). -/
def insertLandingIdx (t : Table) (f : Family) (net : Nlri) (source : Source)
    (nexthop : Addr) (attrs : PathAttr) : Nat :=
  match alistGet ((alistGet t.master f).getD []) net with
  | none => 0
  | some d =>
    if t.disableBestPathSelection then 0
    else bestInsertIdx (Path.new source nexthop attrs) (removeSourcePath source.address d.entry).1

/-- The index of the prior path of the same source address that
`Table::insert` replaces, when one exists. -/
def replacedIdx (t : Table) (f : Family) (net : Nlri) (source : Source) : Option Nat :=
  match alistGet ((alistGet t.master f).getD []) net with
  | none => none
  | some d => (removeSourcePath source.address d.entry).2

/-- One RIB mutation. -/
inductive RibOp where
  | ins : Family → Nlri → Source → Addr → PathAttr → RibOp
  | rem : Family → Nlri → Source → RibOp
  | clr : Source → RibOp

/-- Apply one RIB mutation, keeping only the resulting table. -/
def applyOp (t : Table) : RibOp → Table
  | .ins f n s nh a => (t.insert f n s nh a).2
  | .rem f n s => (t.remove f n s).2
  | .clr s => (t.clear s).2

/-- Run a sequence of RIB mutations from the freshly created table. -/
def runOps (ops : List RibOp) : Table := ops.foldl applyOp Table.new

/-- The per-destination invariant of the spec: a stored destination has a
non-empty entry list and pairwise distinct source addresses. -/
def destWF (d : Destination) : Prop :=
  d.entry ≠ [] ∧ (d.entry.map fun p => p.source.address).Nodup

/-- The RIB-wide destination invariant. -/
def ribWF (t : Table) : Prop :=
  ∀ ft ∈ t.master, ∀ nd ∈ ft.2, destWF nd.2

instance (d : Destination) : Decidable (destWF d) := by
  unfold destWF; infer_instance

instance (t : Table) : Decidable (ribWF t) := by
  unfold ribWF; exact List.decidableBAll _ _

/-! Concrete inputs used by counterexamples and witnesses. -/

/-- An EBGP source at address 1. -/
def exSrc1 : Source := { address := 1, ibgp := false, localAs := 0, localAddr := 0 }

/-- An EBGP source at address 2. -/
def exSrc2 : Source := { address := 2, ibgp := false, localAs := 0, localAddr := 0 }

/-- A sample IPv4 prefix. -/
def exNet : Nlri := .ip { addr := 100, mask := 24 }

/-- A second sample prefix (thought of as IPv6). -/
def exNet6 : Nlri := .ip { addr := 600, mask := 64 }

/-- An IBGP source at address 1. -/
def exIbgp1 : Source := { address := 1, ibgp := true, localAs := 0, localAddr := 0 }

/-- An IBGP source at address 2. -/
def exIbgp2 : Source := { address := 2, ibgp := true, localAs := 0, localAddr := 0 }

/-- A three-peer table: the IBGP originator, another IBGP peer, an EBGP
peer. -/
def exPeersTable : Table :=
  { Table.new with
      activePeers := [(1, ([], exIbgp1)), (2, ([], exIbgp2)), (3, ([], exSrc1))] }

/-! Helper lemmas. -/

theorem alistGet_set_self {κ α : Type} [DecidableEq κ] (l : List (κ × α)) (k : κ) (v : α) :
    alistGet (alistSet l k v) k = some v := by
  induction l with
  | nil => simp [alistSet, alistGet]
  | cons h t ih =>
    obtain ⟨k', w⟩ := h
    by_cases hk : k' = k <;> simp [alistSet, alistGet, hk, ih]

theorem mem_alistSet {κ α : Type} [DecidableEq κ] {l : List (κ × α)} {k : κ} {v : α}
    {x : κ × α} (hx : x ∈ alistSet l k v) : x = (k, v) ∨ x ∈ l := by
  induction l with
  | nil => simpa [alistSet] using hx
  | cons h t ih =>
    obtain ⟨k', w⟩ := h
    by_cases hk : k' = k
    · simp only [alistSet, if_pos hk] at hx
      rcases List.mem_cons.mp hx with h1 | h1
      · exact Or.inl h1
      · exact Or.inr (List.mem_cons_of_mem _ h1)
    · simp only [alistSet, if_neg hk] at hx
      rcases List.mem_cons.mp hx with h1 | h1
      · exact Or.inr (h1 ▸ List.mem_cons_self _ _)
      · rcases ih h1 with h2 | h2
        · exact Or.inl h2
        · exact Or.inr (List.mem_cons_of_mem _ h2)

theorem mem_alistErase {κ α : Type} [DecidableEq κ] {l : List (κ × α)} {k : κ}
    {x : κ × α} (hx : x ∈ alistErase l k) : x ∈ l := by
  induction l with
  | nil => simp [alistErase] at hx
  | cons h t ih =>
    obtain ⟨k', w⟩ := h
    by_cases hk : k' = k
    · simp only [alistErase, if_pos hk] at hx
      exact List.mem_cons_of_mem _ hx
    · simp only [alistErase, if_neg hk] at hx
      rcases List.mem_cons.mp hx with h1 | h1
      · exact h1 ▸ List.mem_cons_self _ _
      · exact List.mem_cons_of_mem _ (ih h1)

theorem alistGet_mem {κ α : Type} [DecidableEq κ] {l : List (κ × α)} {k : κ} {v : α}
    (h : alistGet l k = some v) : (k, v) ∈ l := by
  induction l with
  | nil => simp [alistGet] at h
  | cons hd t ih =>
    obtain ⟨k', w⟩ := hd
    by_cases hk : k' = k
    · simp only [alistGet, if_pos hk] at h
      subst hk
      cases h
      exact List.mem_cons_self _ _
    · simp only [alistGet, if_neg hk] at h
      exact List.mem_cons_of_mem _ (ih h)

theorem removeSourcePath_sublist (a : Addr) (l : List Path) :
    (removeSourcePath a l).1.Sublist l := by
  induction l with
  | nil => simp [removeSourcePath]
  | cons p rest ih =>
    by_cases hp : p.source.address = a
    · simp only [removeSourcePath, if_pos hp]
      exact List.sublist_cons_self p rest
    · simp only [removeSourcePath, if_neg hp]
      exact List.Sublist.cons₂ p ih

theorem removeSourcePath_none (a : Addr) (l : List Path)
    (h : (removeSourcePath a l).2 = none) : (removeSourcePath a l).1 = l := by
  induction l with
  | nil => rfl
  | cons p rest ih =>
    by_cases hp : p.source.address = a
    · simp [removeSourcePath, if_pos hp] at h
    · simp only [removeSourcePath, if_neg hp, Option.map_eq_none'] at h ⊢
      rw [ih h]

theorem removeSourcePath_none_not_mem (a : Addr) (l : List Path)
    (h : (removeSourcePath a l).2 = none) : ∀ p ∈ l, p.source.address ≠ a := by
  induction l with
  | nil => intro p hp; simp at hp
  | cons q rest ih =>
    by_cases hq : q.source.address = a
    · simp [removeSourcePath, if_pos hq] at h
    · simp only [removeSourcePath, if_neg hq, Option.map_eq_none'] at h
      intro p hp
      rcases List.mem_cons.mp hp with h1 | h1
      · exact h1 ▸ hq
      · exact ih h p h1

theorem removeSourcePath_not_mem (a : Addr) (l : List Path)
    (h : (l.map fun p => p.source.address).Nodup) :
    a ∉ ((removeSourcePath a l).1.map fun p => p.source.address) := by
  induction l with
  | nil => simp [removeSourcePath]
  | cons p rest ih =>
    simp only [List.map_cons, List.nodup_cons] at h
    by_cases hp : p.source.address = a
    · simp only [removeSourcePath, if_pos hp]
      rw [← hp]
      exact h.1
    · simp only [removeSourcePath, if_neg hp, List.map_cons, List.mem_cons]
      push_neg
      exact ⟨fun he => hp he.symm, ih h.2⟩

theorem insertAt_perm {α : Type} (n : Nat) (b : α) (l : List α) :
    (insertAt n b l).Perm (b :: l) := by
  induction n generalizing l with
  | zero => simp [insertAt]
  | succ m ih =>
    cases l with
    | nil => simp [insertAt]
    | cons a rest =>
      simp only [insertAt]
      exact ((ih rest).cons a).trans (List.Perm.swap b a rest)

/-! C1. The spec claims entry[0] dominates every entry under the ordered
comparison chain (LocalPref first, AS-path length only on LocalPref ties,
and so on). The insert scan at main.rs lines 411-429 checks each criterion
without requiring the earlier ones to tie, so a path with strictly lower
LocalPref but shorter AS-path is placed at entry[0]. -/

/-- C1: with best-path selection enabled (the default of Table::new),
inserting a path with default LocalPref 100 and a two-AS AS_SEQUENCE and
then a path with LocalPref 50 and no AS-path leaves the LocalPref-50 path
at entry[0], although under the ordered comparison chain of spec 4.2 the
LocalPref-100 path at entry[1] is strictly preferred: the claimed
invariant fails on this two-insert sequence. -/
theorem c1_entry0_chain_dominance_fails :
    entryOf
        ((((Table.new.insert Family.ipv4Uc exNet exSrc1 10
              ⟨[.asPath [⟨2, [11, 12]⟩]]⟩).2).insert Family.ipv4Uc exNet exSrc2 20
              ⟨[.localPref 50]⟩).2) Family.ipv4Uc exNet =
      [Path.new exSrc2 20 ⟨[.localPref 50]⟩,
        Path.new exSrc1 10 ⟨[.asPath [⟨2, [11, 12]⟩]]⟩] ∧
    ¬specChainGe (Path.new exSrc2 20 ⟨[.localPref 50]⟩)
        (Path.new exSrc1 10 ⟨[.asPath [⟨2, [11, 12]⟩]]⟩) := by
  constructor
  · rfl
  · decide

/-! C10: absent Origin and MED attributes read as 0, the most preferred
value of each criterion. -/

theorem get_origin_go_all_absent (l : List Attribute)
    (h : l.all (fun a => !isOriginA a) = true) : Path.get_origin.go l = 0 := by
  induction l with
  | nil => rfl
  | cons a rest ih =>
    simp only [List.all_cons, Bool.and_eq_true] at h
    cases a with
    | origin v => simp [isOriginA] at h
    | asPath s => exact ih h.2
    | nexthop x => exact ih h.2
    | multiExitDesc v => exact ih h.2
    | localPref v => exact ih h.2
    | community c => exact ih h.2
    | mpReach f x n => exact ih h.2

theorem get_med_go_all_absent (l : List Attribute)
    (h : l.all (fun a => !isMedA a) = true) : Path.get_med.go l = 0 := by
  induction l with
  | nil => rfl
  | cons a rest ih =>
    simp only [List.all_cons, Bool.and_eq_true] at h
    cases a with
    | origin v => exact ih h.2
    | asPath s => exact ih h.2
    | nexthop x => exact ih h.2
    | multiExitDesc v => simp [isMedA] at h
    | localPref v => exact ih h.2
    | community c => exact ih h.2
    | mpReach f x n => exact ih h.2

/-- C10: a path whose attribute bag has no Origin attribute reads Origin 0
from Path::get_origin, and one with no MED attribute reads MED 0 from
Path::get_med; 0 is the most preferred (lowest) value, so such a path is
never disfavoured on that criterion against any other path. -/
theorem c10_absent_origin_med_read_zero (p q : Path) :
    (p.attrs.entry.all (fun a => !isOriginA a) = true →
      p.get_origin = 0 ∧ p.get_origin ≤ q.get_origin)
  ∧ (p.attrs.entry.all (fun a => !isMedA a) = true →
      p.get_med = 0 ∧ p.get_med ≤ q.get_med) := by
  constructor
  · intro h
    have h0 : p.get_origin = 0 := get_origin_go_all_absent _ h
    exact ⟨h0, h0 ▸ Nat.zero_le _⟩
  · intro h
    have h0 : p.get_med = 0 := get_med_go_all_absent _ h
    exact ⟨h0, h0 ▸ Nat.zero_le _⟩

/-! C7. Peer::update_accepted protects against underflow only when the
family is absent; for a present family the u64 subtraction at main.rs line
784 is unchecked, so a negative delta larger than the stored count wraps
past zero instead of clamping at 0. -/

/-- C7 counterexample: a peer whose accepted count for IPv4-Unicast is 0
receives delta -1; the counter wraps to 2^64 - 1 instead of staying
clamped at 0 as the claim requires. -/
theorem c7_counterexample :
    ((Peer.mk [(Family.ipv4Uc, 0)]).update_accepted Family.ipv4Uc (-1)).accepted =
        [(Family.ipv4Uc, 2 ^ 64 - 1)] ∧ (2 ^ 64 - 1 : Nat) ≠ 0 := by
  constructor
  · rfl
  · decide

/-- C7 amended: update_accepted inserts a positive delta for an absent
family, ignores a non-positive delta for an absent family, and for a
present family applies the delta with unchecked wrapping u64 arithmetic,
so a negative delta whose magnitude exceeds the stored count wraps modulo
2^64 to a huge value rather than clamping the counter at 0. -/
theorem c7_update_accepted_characterization (p : Peer) (f : Family) (d : Int) :
    (alistGet p.accepted f = none → d ≤ 0 → p.update_accepted f d = p)
  ∧ (alistGet p.accepted f = none → 0 < d →
      (p.update_accepted f d).accepted = p.accepted ++ [(f, d.toNat)])
  ∧ (∀ v, alistGet p.accepted f = some v → 0 < d →
      (p.update_accepted f d).accepted = alistSet p.accepted f ((v + d.toNat) % U64MOD))
  ∧ (∀ v, alistGet p.accepted f = some v → d ≤ 0 → d.natAbs ≤ v → v < U64MOD →
      (p.update_accepted f d).accepted = alistSet p.accepted f (v - d.natAbs))
  ∧ (∀ v, alistGet p.accepted f = some v → d ≤ 0 → v < d.natAbs → d.natAbs < U64MOD →
      (p.update_accepted f d).accepted = alistSet p.accepted f (v + U64MOD - d.natAbs) ∧
        v + U64MOD - d.natAbs ≠ 0) := by
  have humod : 0 < U64MOD := by decide
  refine ⟨?_, ?_, ?_, ?_, ?_⟩
  · intro hn hd
    simp [Peer.update_accepted, hn, Int.not_lt.mpr hd]
  · intro hn hd
    simp [Peer.update_accepted, hn, hd]
  · intro v hv hd
    simp [Peer.update_accepted, hv, hd, u64Add]
  · intro v hv hd hle hlt
    have hm : d.natAbs % U64MOD = d.natAbs := Nat.mod_eq_of_lt (by omega)
    have : u64Sub v d.natAbs = v - d.natAbs := by
      unfold u64Sub
      rw [hm]
      have h2 : v + (U64MOD - d.natAbs) = v - d.natAbs + U64MOD := by omega
      rw [h2, Nat.add_mod_right]
      exact Nat.mod_eq_of_lt (by omega)
    simp [Peer.update_accepted, hv, Int.not_lt.mpr hd, this]
  · intro v hv hd hgt hlt
    have hm : d.natAbs % U64MOD = d.natAbs := Nat.mod_eq_of_lt (by omega)
    have : u64Sub v d.natAbs = v + U64MOD - d.natAbs := by
      unfold u64Sub
      rw [hm, Nat.mod_eq_of_lt (by omega)]
      omega
    refine ⟨by simp [Peer.update_accepted, hv, Int.not_lt.mpr hd, this], by omega⟩

/-- Witness for C7's amended theorem: concrete instances of the absent
family cases and both present-family subtraction cases. -/
theorem c7_witness :
    ((Peer.mk []).update_accepted Family.ipv4Uc (-3) = Peer.mk []) ∧
    ((Peer.mk []).update_accepted Family.ipv4Uc 2).accepted = [(Family.ipv4Uc, 2)] ∧
    ((Peer.mk [(Family.ipv4Uc, 5)]).update_accepted Family.ipv4Uc 4).accepted =
        [(Family.ipv4Uc, 9)] ∧
    ((Peer.mk [(Family.ipv4Uc, 5)]).update_accepted Family.ipv4Uc (-2)).accepted =
        [(Family.ipv4Uc, 3)] ∧
    ((Peer.mk [(Family.ipv4Uc, 1)]).update_accepted Family.ipv4Uc (-2)).accepted =
        [(Family.ipv4Uc, 1 + U64MOD - 2)] := by
  have h1 := (c7_update_accepted_characterization (Peer.mk []) Family.ipv4Uc (-3)).1
    (by rfl) (by decide)
  have h2 := (c7_update_accepted_characterization (Peer.mk []) Family.ipv4Uc 2).2.1
    (by rfl) (by decide)
  have h3 := ((c7_update_accepted_characterization (Peer.mk [(Family.ipv4Uc, 5)])
    Family.ipv4Uc 4).2.2.1) 5 (by rfl) (by decide)
  have h4 := ((c7_update_accepted_characterization (Peer.mk [(Family.ipv4Uc, 5)])
    Family.ipv4Uc (-2)).2.2.2.1) 5 (by rfl) (by decide) (by decide) (by decide)
  have h5 := ((c7_update_accepted_characterization (Peer.mk [(Family.ipv4Uc, 1)])
    Family.ipv4Uc (-2)).2.2.2.2) 1 (by rfl) (by decide) (by decide) (by decide)
  refine ⟨h1, ?_, ?_, ?_, ?_⟩
  · rw [h2]; rfl
  · rw [h3]; rfl
  · rw [h4]; rfl
  · rw [h5.1]; rfl

/-! C9. The EBGP AS-path rewrite of update_attrs. The segment list is
reversed while being cloned (main.rs line 2165), so the case analysis is
on the head of the reversed list. -/

/-- C9: on an EBGP session, update_attrs rewrites a stored AS-path as
follows: an empty segment list becomes a single AS_SEQUENCE holding the
local AS; otherwise, with the clone reversed during processing, if the
leading segment is an AS_SEQUENCE with fewer than 255 AS entries the local
AS is prepended into it (so a 254-entry segment grows to 255), and if it
is not an AS_SEQUENCE or already holds 255 entries a fresh AS_SEQUENCE
with the local AS is prepended as a new segment. -/
theorem c9_ebgp_aspath_rewrite (mp : Bool) (la : Nat) (nl : Nlri) (onh laddr : Addr)
    (segs : List Segment) :
    (segs = [] →
      (update_attrs false mp la nl onh laddr [.asPath segs]).2.head? =
        some (.asPath [⟨Segment.TYPE_SEQ, [la]⟩]))
  ∧ (∀ s0 rest, segs.reverse = s0 :: rest →
      ((s0.segmentType = Segment.TYPE_SEQ → s0.number.length < 255 →
        (update_attrs false mp la nl onh laddr [.asPath segs]).2.head? =
          some (.asPath (⟨s0.segmentType, la :: s0.number⟩ :: rest)))
      ∧ ((s0.segmentType ≠ Segment.TYPE_SEQ ∨ s0.number.length = 255) →
        (update_attrs false mp la nl onh laddr [.asPath segs]).2.head? =
          some (.asPath (⟨Segment.TYPE_SEQ, [la]⟩ :: s0 :: rest))))) := by
  have hhead : ∀ x : Attribute,
      (update_attrs false mp la nl onh laddr [.asPath segs]).2.head? =
        some (ebgpAsPath la segs) := by
    intro _
    cases mp <;> rfl
  constructor
  · intro h
    rw [hhead (.asPath segs)]
    subst h
    rfl
  · intro s0 rest hrev
    have he : ebgpAsPath la segs =
        if s0.segmentType ≠ Segment.TYPE_SEQ ∨ s0.number.length = 255 then
          .asPath (⟨Segment.TYPE_SEQ, [la]⟩ :: s0 :: rest)
        else .asPath (⟨s0.segmentType, la :: s0.number⟩ :: rest) := by
      unfold ebgpAsPath
      rw [hrev]
    constructor
    · intro hseq hlen
      have hneg : ¬(s0.segmentType ≠ Segment.TYPE_SEQ ∨ s0.number.length = 255) := by
        push_neg
        exact ⟨hseq, by omega⟩
      rw [hhead (.asPath segs), he, if_neg hneg]
    · intro hcond
      rw [hhead (.asPath segs), he, if_pos hcond]

/-- Witness for C9 at the three boundary inputs: the empty segment list, a
254-entry leading AS_SEQUENCE (grows to 255), and a 255-entry leading
AS_SEQUENCE (a fresh segment is prepended). -/
theorem c9_witness :
    ((update_attrs false false 9 exNet 0 0 [.asPath []]).2.head? =
        some (.asPath [⟨Segment.TYPE_SEQ, [9]⟩]))
  ∧ ((update_attrs false false 9 exNet 0 0
        [.asPath [⟨Segment.TYPE_SEQ, List.replicate 254 7⟩]]).2.head? =
      some (.asPath [⟨Segment.TYPE_SEQ, 9 :: List.replicate 254 7⟩]))
  ∧ ((update_attrs false false 9 exNet 0 0
        [.asPath [⟨Segment.TYPE_SEQ, List.replicate 255 7⟩]]).2.head? =
      some (.asPath [⟨Segment.TYPE_SEQ, [9]⟩, ⟨Segment.TYPE_SEQ, List.replicate 255 7⟩])) := by
  have h1 := (c9_ebgp_aspath_rewrite false 9 exNet 0 0 []).1 rfl
  have h2 := ((c9_ebgp_aspath_rewrite false 9 exNet 0 0
      [⟨Segment.TYPE_SEQ, List.replicate 254 7⟩]).2
      ⟨Segment.TYPE_SEQ, List.replicate 254 7⟩ [] (by rfl)).1 rfl
      (by show (List.replicate 254 (7 : Nat)).length < 255
          rw [List.length_replicate]
          omega)
  have h3 := ((c9_ebgp_aspath_rewrite false 9 exNet 0 0
      [⟨Segment.TYPE_SEQ, List.replicate 255 7⟩]).2
      ⟨Segment.TYPE_SEQ, List.replicate 255 7⟩ [] (by rfl)).2
      (Or.inr (by show (List.replicate 255 (7 : Nat)).length = 255
                  rw [List.length_replicate]))
  exact ⟨h1, h2, h3⟩

/-! C6. Table::broadcast fan-out discipline. -/

/-- C6: Table::broadcast never delivers the update to the entry whose
address equals the originating source's address, never delivers it when
both the originating source and the target source are IBGP, and appends
exactly one copy of the update to the channel of every other entry of
active_peers (entries are matched positionally; the map keeps length and
order). -/
theorem c6_broadcast_split_horizon (t : Table) (frm : Source) (msg : TableUpdate)
    (i : Nat) (addr : Addr) (tx : List TableUpdate) (tgt : Source)
    (h : t.activePeers[i]? = some (addr, (tx, tgt))) :
    ((addr = frm.address ∨ (frm.ibgp = true ∧ tgt.ibgp = true)) →
        (t.broadcast frm msg).activePeers[i]? = some (addr, (tx, tgt)))
  ∧ ((addr ≠ frm.address ∧ ¬(frm.ibgp = true ∧ tgt.ibgp = true)) →
        (t.broadcast frm msg).activePeers[i]? = some (addr, (tx ++ [msg], tgt)))
  ∧ (t.broadcast frm msg).activePeers.length = t.activePeers.length := by
  refine ⟨?_, ?_, by simp [Table.broadcast]⟩
  · intro hc
    have hneg : ¬(addr ≠ frm.address ∧ ¬(frm.ibgp = true ∧ tgt.ibgp = true)) := by
      rcases hc with hc | hc
      · intro hx
        exact hx.1 hc
      · intro hx
        exact hx.2 hc
    simp only [Table.broadcast, List.getElem?_map, h, Option.map_some']
    rw [if_neg hneg]
  · intro hc
    simp only [Table.broadcast, List.getElem?_map, h, Option.map_some']
    rw [if_pos hc]

/-- Witness for C6: a three-peer table in which the originator (address
1), an IBGP-to-IBGP pair and an eligible EBGP peer are each checked. -/
theorem c6_witness :
    (exPeersTable.broadcast exIbgp1 (.withdrawn exNet exIbgp1)).activePeers[0]? =
        some (1, ([], exIbgp1)) ∧
      (exPeersTable.broadcast exIbgp1 (.withdrawn exNet exIbgp1)).activePeers[1]? =
        some (2, ([], exIbgp2)) ∧
      (exPeersTable.broadcast exIbgp1 (.withdrawn exNet exIbgp1)).activePeers[2]? =
        some (3, ([.withdrawn exNet exIbgp1], exSrc1)) := by
  refine ⟨?_, ?_, ?_⟩
  · exact (c6_broadcast_split_horizon exPeersTable exIbgp1 (.withdrawn exNet exIbgp1)
      0 1 [] exIbgp1 rfl).1 (Or.inl rfl)
  · exact (c6_broadcast_split_horizon exPeersTable exIbgp1 (.withdrawn exNet exIbgp1)
      1 2 [] exIbgp2 rfl).1 (Or.inr ⟨rfl, rfl⟩)
  · exact (c6_broadcast_split_horizon exPeersTable exIbgp1 (.withdrawn exNet exIbgp1)
      2 3 [] exSrc1 rfl).2.1 ⟨by decide, by decide⟩

/-! C2. The insertion position of Table::insert refines the spec's
description: the candidate lands before the first existing entry it
strictly beats, last when it beats none. -/

theorem get_local_preference_eq_spec (p : Path) :
    p.get_local_preference = specLocalPref p := by
  unfold Path.get_local_preference specLocalPref
  induction p.attrs.entry with
  | nil => rfl
  | cons a rest ih =>
    cases a <;> first | exact ih | rfl

theorem get_as_len_eq_spec (p : Path) : p.get_as_len = specAsLen p := by
  unfold Path.get_as_len specAsLen
  induction p.attrs.entry with
  | nil => rfl
  | cons a rest ih =>
    cases a <;> first | exact ih | rfl

theorem get_origin_eq_spec (p : Path) : p.get_origin = specOrigin p := by
  unfold Path.get_origin specOrigin
  induction p.attrs.entry with
  | nil => rfl
  | cons a rest ih =>
    cases a <;> first | exact ih | rfl

theorem get_med_eq_spec (p : Path) : p.get_med = specMed p := by
  unfold Path.get_med specMed
  induction p.attrs.entry with
  | nil => rfl
  | cons a rest ih =>
    cases a <;> first | exact ih | rfl

theorem bestInsertIdx_cons (b a : Path) (rest : List Path) :
    bestInsertIdx b (a :: rest) =
      if specBeats b a then 0 else bestInsertIdx b rest + 1 := by
  simp only [bestInsertIdx, get_local_preference_eq_spec, get_as_len_eq_spec,
    get_origin_eq_spec, get_med_eq_spec]
  by_cases c1 : specLocalPref b > specLocalPref a
  · simp [specBeats, c1]
  · by_cases c2 : specAsLen b < specAsLen a
    · simp [specBeats, c1, c2]
    · by_cases c3 : specOrigin b < specOrigin a
      · simp [specBeats, c1, c2, c3]
      · by_cases c4 : specMed b < specMed a
        · simp [specBeats, c1, c2, c3, c4]
        · simp [specBeats, c1, c2, c3, c4]

theorem bestInsertIdx_eq_findIdx (b : Path) (l : List Path) :
    bestInsertIdx b l = l.findIdx fun a => decide (specBeats b a) := by
  induction l with
  | nil => rfl
  | cons a rest ih =>
    rw [bestInsertIdx_cons, List.findIdx_cons]
    by_cases h : specBeats b a
    · simp [h]
    · simp [h, ih]

theorem entryOf_insert (t : Table) (f : Family) (net : Nlri) (src : Source)
    (nh : Addr) (attrs : PathAttr) :
    entryOf (t.insert f net src nh attrs).2 f net =
      insertAt
        (if t.disableBestPathSelection then 0
         else bestInsertIdx (Path.new src nh attrs)
           (removeSourcePath src.address (entryOf t f net)).1)
        (Path.new src nh attrs)
        (removeSourcePath src.address (entryOf t f net)).1 := by
  cases hd : alistGet ((alistGet t.master f).getD []) net with
  | none =>
    simp only [Table.insert, entryOf, hd, alistGet_set_self, Option.getD_some,
      removeSourcePath, bestInsertIdx]
    cases hb : t.disableBestPathSelection <;> simp [insertAt, hb]
  | some d =>
    simp only [Table.insert, entryOf, hd, alistGet_set_self, Option.getD_some]

/-- C2: with best-path selection enabled, Table::insert places the
candidate path (built from the given source, nexthop and attributes) at
the index of the first entry it strictly beats among the existing entries
left after dropping any prior path of the same source address; beating is
the ordered disjunction higher-LocalPref (default 100 when absent),
shorter AS-path (sum of segment lengths), lower Origin, lower MED, and a
candidate that beats no entry is appended last (List.findIdx returns the
list length then). -/
theorem c2_insert_position (t : Table) (f : Family) (net : Nlri) (src : Source)
    (nh : Addr) (attrs : PathAttr) (hbp : t.disableBestPathSelection = false) :
    entryOf (t.insert f net src nh attrs).2 f net =
      insertAt
        ((removeSourcePath src.address (entryOf t f net)).1.findIdx
          fun a => decide (specBeats (Path.new src nh attrs) a))
        (Path.new src nh attrs)
        (removeSourcePath src.address (entryOf t f net)).1 := by
  rw [entryOf_insert, hbp, if_neg (by simp), bestInsertIdx_eq_findIdx]

/-- Witness for C2: inserting a LocalPref-120 path into a table holding a
LocalPref-200 and a LocalPref-150 path from other sources appends it last
(it beats neither). -/
theorem c2_witness :
    (((Table.new.insert Family.ipv4Uc exNet exSrc2 20 ⟨[.localPref 150]⟩).2.insert
          Family.ipv4Uc exNet exSrc1 10 ⟨[.localPref 200]⟩).2.disableBestPathSelection
        = false) ∧
      entryOf
        ((((Table.new.insert Family.ipv4Uc exNet exSrc2 20 ⟨[.localPref 150]⟩).2.insert
            Family.ipv4Uc exNet exSrc1 10 ⟨[.localPref 200]⟩).2).insert
          Family.ipv4Uc exNet ⟨3, false, 0, 0⟩ 30 ⟨[.localPref 120]⟩).2
        Family.ipv4Uc exNet =
      [Path.new exSrc1 10 ⟨[.localPref 200]⟩, Path.new exSrc2 20 ⟨[.localPref 150]⟩,
        Path.new ⟨3, false, 0, 0⟩ 30 ⟨[.localPref 120]⟩] := by
  constructor
  · rfl
  · rw [c2_insert_position _ _ _ _ _ _ rfl]
    rfl

/-! C3. When a NewBest update is returned. The claim ties it exactly to
landing at position 0, but replacing the previous position-0 path also
returns NewBest even when the candidate lands elsewhere. -/

/-- C3 counterexample: with entries LocalPref 200 (source 1, best) and 150
(source 2), source 1 re-announces with LocalPref 100. The new path lands
at index 1 (it beats nothing), yet insert returns a NewBest update because
the replaced prior path sat at position 0 - contradicting the claim that a
NewBest is returned only for insertions landing at position 0. -/
theorem c3_counterexample :
    ((((Table.new.insert Family.ipv4Uc exNet exSrc2 20 ⟨[.localPref 150]⟩).2.insert
          Family.ipv4Uc exNet exSrc1 10 ⟨[.localPref 200]⟩).2.insert
          Family.ipv4Uc exNet exSrc1 10 ⟨[.localPref 100]⟩).1.1.isSome = true) ∧
      insertLandingIdx
        (((Table.new.insert Family.ipv4Uc exNet exSrc2 20 ⟨[.localPref 150]⟩).2.insert
            Family.ipv4Uc exNet exSrc1 10 ⟨[.localPref 200]⟩).2)
        Family.ipv4Uc exNet exSrc1 10 ⟨[.localPref 100]⟩ = 1 ∧
      entryOf
        ((((Table.new.insert Family.ipv4Uc exNet exSrc2 20 ⟨[.localPref 150]⟩).2.insert
            Family.ipv4Uc exNet exSrc1 10 ⟨[.localPref 200]⟩).2.insert
            Family.ipv4Uc exNet exSrc1 10 ⟨[.localPref 100]⟩).2)
        Family.ipv4Uc exNet =
        [Path.new exSrc2 20 ⟨[.localPref 150]⟩, Path.new exSrc1 10 ⟨[.localPref 100]⟩] := by
  refine ⟨rfl, rfl, rfl⟩

/-- C3 amended: Table::insert returns a NewBest update iff best-path
selection is enabled and either the candidate lands at index 0 or the
prior same-source path it replaced sat at index 0 (a fresh destination
counts as landing at index 0); when disable_best_path_selection is true
the candidate is always placed at the head of the entry list and no update
is returned. -/
theorem c3_newbest_characterization (t : Table) (f : Family) (net : Nlri)
    (src : Source) (nh : Addr) (attrs : PathAttr) :
    ((t.insert f net src nh attrs).1.1.isSome = true ↔
      t.disableBestPathSelection = false ∧
        (insertLandingIdx t f net src nh attrs = 0 ∨ replacedIdx t f net src = some 0))
  ∧ (t.disableBestPathSelection = true →
      (t.insert f net src nh attrs).1.1 = none ∧
        entryOf (t.insert f net src nh attrs).2 f net =
          Path.new src nh attrs ::
            (removeSourcePath src.address (entryOf t f net)).1) := by
  cases hd : alistGet ((alistGet t.master f).getD []) net with
  | none =>
    refine ⟨?_, ?_⟩
    · simp only [Table.insert, insertLandingIdx, replacedIdx, hd]
      cases hb : t.disableBestPathSelection <;> simp [hb]
    · intro hb
      refine ⟨?_, ?_⟩
      · simp [Table.insert, hd, hb]
      · simp [Table.insert, entryOf, hd, hb, alistGet_set_self, removeSourcePath]
  | some d =>
    refine ⟨?_, ?_⟩
    · simp only [Table.insert, insertLandingIdx, replacedIdx, hd]
      cases hb : t.disableBestPathSelection
      · by_cases h1 : (removeSourcePath src.address d.entry).2 = some 0 <;>
          by_cases h2 : bestInsertIdx (Path.new src nh attrs)
              (removeSourcePath src.address d.entry).1 = 0 <;>
          simp [h1, h2]
      · simp [hb]
    · intro hb
      refine ⟨?_, ?_⟩
      · simp [Table.insert, hd, hb]
      · simp [Table.insert, entryOf, hd, hb, alistGet_set_self, insertAt]

/-- Witness for C3's amended theorem: in collector mode an insertion into
an occupied destination lands at the head and returns no update. -/
theorem c3_witness :
    ({ Table.new with disableBestPathSelection := true }.insert
        Family.ipv4Uc exNet exSrc1 10 ⟨[]⟩).2.disableBestPathSelection = true ∧
    (({ Table.new with disableBestPathSelection := true }.insert
        Family.ipv4Uc exNet exSrc1 10 ⟨[]⟩).2.insert
        Family.ipv4Uc exNet exSrc2 20 ⟨[]⟩).1.1 = none ∧
    entryOf
        ((({ Table.new with disableBestPathSelection := true }.insert
            Family.ipv4Uc exNet exSrc1 10 ⟨[]⟩).2.insert
            Family.ipv4Uc exNet exSrc2 20 ⟨[]⟩).2) Family.ipv4Uc exNet =
      [Path.new exSrc2 20 ⟨[]⟩, Path.new exSrc1 10 ⟨[]⟩] := by
  have h := (c3_newbest_characterization
      (({ Table.new with disableBestPathSelection := true }).insert
        Family.ipv4Uc exNet exSrc1 10 ⟨[]⟩).2
      Family.ipv4Uc exNet exSrc2 20 ⟨[]⟩).2 rfl
  exact ⟨rfl, h.1, by rw [h.2]; rfl⟩

/-! C4. Full characterization of Table::remove. -/

theorem alistGet_eq_none_of_not_mem {κ α : Type} [DecidableEq κ] {l : List (κ × α)}
    {k : κ} (h : k ∉ l.map Prod.fst) : alistGet l k = none := by
  induction l with
  | nil => rfl
  | cons hd t ih =>
    obtain ⟨k', w⟩ := hd
    simp only [List.map_cons, List.mem_cons] at h
    push_neg at h
    have hne : k' ≠ k := fun he => h.1 he.symm
    simp only [alistGet, if_neg hne]
    exact ih h.2

theorem alistGet_erase_self {κ α : Type} [DecidableEq κ] {l : List (κ × α)} {k : κ}
    (h : (l.map Prod.fst).Nodup) : alistGet (alistErase l k) k = none := by
  induction l with
  | nil => rfl
  | cons hd t ih =>
    obtain ⟨k', w⟩ := hd
    simp only [List.map_cons, List.nodup_cons] at h
    by_cases hk : k' = k
    · simp only [alistErase, if_pos hk]
      subst hk
      exact alistGet_eq_none_of_not_mem h.1
    · simp only [alistErase, if_neg hk, alistGet, if_neg hk]
      exact ih h.2

/-- C4: Table::remove drops the path whose source.address matches, if any.
When no path of that source exists for the family and prefix it returns
(none, false) and leaves the whole table unchanged. When the destination
empties it is deleted and (Withdrawn, true) is returned; when the removed
path sat at position 0 a NewBest built from the new head is returned with
flag true; otherwise (none, true) with the shrunken entry list kept. -/
theorem c4_remove_characterization (t : Table) (f : Family) (net : Nlri) (src : Source)
    (hk : ∀ ft ∈ t.master, (ft.2.map Prod.fst).Nodup) :
    ((removeSourcePath src.address (entryOf t f net)).2 = none →
        t.remove f net src = ((none, false), t))
  ∧ (∀ i, removeSourcePath src.address (entryOf t f net) = ([], some i) →
      (t.remove f net src).1 = (some (.withdrawn net src), true) ∧
        alistGet ((alistGet (t.remove f net src).2.master f).getD []) net = none)
  ∧ (∀ hd rest, removeSourcePath src.address (entryOf t f net) = (hd :: rest, some 0) →
      (t.remove f net src).1 = (some (.newBest net hd.nexthop hd.attrs hd.source), true) ∧
        entryOf (t.remove f net src).2 f net = hd :: rest)
  ∧ (∀ hd rest i, removeSourcePath src.address (entryOf t f net) = (hd :: rest, some i) →
      i ≠ 0 →
      (t.remove f net src).1 = (none, true) ∧
        entryOf (t.remove f net src).2 f net = hd :: rest) := by
  cases hm : alistGet t.master f with
  | none =>
    refine ⟨fun _ => by simp [Table.remove, hm], ?_, ?_, ?_⟩
    · intro i h
      simp [entryOf, hm, removeSourcePath] at h
    · intro hd rest h
      simp [entryOf, hm, removeSourcePath] at h
    · intro hd rest i h hi
      simp [entryOf, hm, removeSourcePath] at h
  | some tbl =>
    cases hn : alistGet tbl net with
    | none =>
      refine ⟨fun _ => by simp [Table.remove, hm, hn], ?_, ?_, ?_⟩
      · intro i h
        simp [entryOf, hm, hn, removeSourcePath] at h
      · intro hd rest h
        simp [entryOf, hm, hn, removeSourcePath] at h
      · intro hd rest i h hi
        simp [entryOf, hm, hn, removeSourcePath] at h
    | some d =>
      have hent : entryOf t f net = d.entry := by
        simp [entryOf, hm, hn]
      refine ⟨?_, ?_, ?_, ?_⟩
      · intro h
        rw [hent] at h
        cases hr : removeSourcePath src.address d.entry with
        | mk l2 o =>
          rw [hr] at h
          cases o with
          | none => simp [Table.remove, hm, hn, hr]
          | some i => simp at h
      · intro i h
        rw [hent] at h
        constructor
        · simp [Table.remove, hm, hn, h]
        · have hnodup : (tbl.map Prod.fst).Nodup := hk (f, tbl) (alistGet_mem hm)
          simp only [Table.remove, hm, hn, h, alistGet_set_self, Option.getD_some]
          exact alistGet_erase_self hnodup
      · intro hd rest h
        rw [hent] at h
        constructor
        · simp [Table.remove, hm, hn, h]
        · simp [Table.remove, entryOf, hm, hn, h, alistGet_set_self]
      · intro hd rest i h hi
        rw [hent] at h
        constructor
        · simp [Table.remove, hm, hn, h, hi]
        · simp [Table.remove, entryOf, hm, hn, h, hi, alistGet_set_self]

/-- Witness for C4 covering all four cases on a concrete table: a
no-match removal is a no-op returning (none, false), removing the only
path deletes the destination and returns Withdrawn, removing the head of
a two-path destination returns NewBest of the new head, and removing the
second path returns (none, true). -/
theorem c4_witness :
    (((Table.new.insert Family.ipv4Uc exNet exSrc1 10 ⟨[]⟩).2.remove
        Family.ipv4Uc exNet ⟨9, false, 0, 0⟩) =
      ((none, false), (Table.new.insert Family.ipv4Uc exNet exSrc1 10 ⟨[]⟩).2)) ∧
    (((Table.new.insert Family.ipv4Uc exNet exSrc1 10 ⟨[]⟩).2.remove
        Family.ipv4Uc exNet exSrc1).1 =
      (some (.withdrawn exNet exSrc1), true)) ∧
    ((((Table.new.insert Family.ipv4Uc exNet exSrc2 20 ⟨[.localPref 150]⟩).2.insert
          Family.ipv4Uc exNet exSrc1 10 ⟨[.localPref 200]⟩).2.remove
        Family.ipv4Uc exNet exSrc1).1 =
      (some (.newBest exNet 20 ⟨[.localPref 150]⟩ exSrc2), true)) ∧
    ((((Table.new.insert Family.ipv4Uc exNet exSrc2 20 ⟨[.localPref 150]⟩).2.insert
          Family.ipv4Uc exNet exSrc1 10 ⟨[.localPref 200]⟩).2.remove
        Family.ipv4Uc exNet exSrc2).1 = (none, true)) := by
  refine ⟨?_, ?_, ?_, ?_⟩
  · exact (c4_remove_characterization _ Family.ipv4Uc exNet ⟨9, false, 0, 0⟩
      (by decide)).1 (by decide)
  · exact ((c4_remove_characterization _ Family.ipv4Uc exNet exSrc1
      (by decide)).2.1 0 (by decide)).1
  · exact ((c4_remove_characterization _ Family.ipv4Uc exNet exSrc1
      (by decide)).2.2.1 (Path.new exSrc2 20 ⟨[.localPref 150]⟩) [] (by decide)).1
  · exact ((c4_remove_characterization _ Family.ipv4Uc exNet exSrc2
      (by decide)).2.2.2 (Path.new exSrc1 10 ⟨[.localPref 200]⟩) [] 1 (by decide)
      (by decide)).1

/-! C5. The destination invariant: non-empty entry lists with pairwise
distinct source addresses, preserved by insert, remove and clear. -/

/-- The destination Table::insert stores for the family and prefix. -/
def insertDest (t : Table) (f : Family) (net : Nlri) (src : Source)
    (nh : Addr) (attrs : PathAttr) : Destination :=
  match alistGet ((alistGet t.master f).getD []) net with
  | some d =>
    { d with
        entry :=
          insertAt
            (if t.disableBestPathSelection then 0
             else bestInsertIdx (Path.new src nh attrs)
               (removeSourcePath src.address d.entry).1)
            (Path.new src nh attrs) (removeSourcePath src.address d.entry).1 }
  | none => { net := net, entry := [Path.new src nh attrs] }

theorem insert_master (t : Table) (f : Family) (net : Nlri) (src : Source)
    (nh : Addr) (attrs : PathAttr) :
    (t.insert f net src nh attrs).2.master =
      alistSet t.master f
        (alistSet ((alistGet t.master f).getD []) net (insertDest t f net src nh attrs)) := by
  cases hd : alistGet ((alistGet t.master f).getD []) net with
  | none => simp [Table.insert, insertDest, hd]
  | some d => simp [Table.insert, insertDest, hd]

theorem destWF_insertAt (b : Path) (l : List Path) (n : Nat)
    (hn : (l.map fun p => p.source.address).Nodup)
    (hb : b.source.address ∉ l.map fun p => p.source.address) :
    insertAt n b l ≠ [] ∧ ((insertAt n b l).map fun p => p.source.address).Nodup := by
  have hperm : (insertAt n b l).Perm (b :: l) := insertAt_perm n b l
  have hpm : ((insertAt n b l).map fun p => p.source.address).Perm
      (b.source.address :: l.map fun p => p.source.address) := hperm.map _
  constructor
  · intro he
    rw [he] at hperm
    simpa using hperm.length_eq
  · exact hpm.nodup_iff.mpr (List.nodup_cons.mpr ⟨hb, hn⟩)

theorem destWF_of_mem (t : Table) (h : ribWF t) {f : Family} {tbl : List (Nlri × Destination)}
    {net : Nlri} {d : Destination} (hm : alistGet t.master f = some tbl)
    (hn : alistGet tbl net = some d) : destWF d :=
  h (f, tbl) (alistGet_mem hm) (net, d) (alistGet_mem hn)

theorem insert_ribWF (t : Table) (f : Family) (net : Nlri) (src : Source)
    (nh : Addr) (attrs : PathAttr) (h : ribWF t) :
    ribWF (t.insert f net src nh attrs).2 := by
  intro ft hft nd hnd
  rw [insert_master] at hft
  rcases mem_alistSet hft with hft | hft
  · subst hft
    rcases mem_alistSet hnd with hnd | hnd
    · subst hnd
      show destWF (insertDest t f net src nh attrs)
      unfold insertDest
      cases hm : alistGet t.master f with
      | none =>
        simp only [hm, Option.getD_none, alistGet]
        exact ⟨by simp, by simp⟩
      | some tbl =>
        simp only [hm, Option.getD_some]
        cases hd : alistGet tbl net with
        | none => exact ⟨by simp, by simp⟩
        | some d =>
          have hwf := destWF_of_mem t h hm hd
          have hsub : ((removeSourcePath src.address d.entry).1.map
              fun p => p.source.address).Nodup :=
            ((removeSourcePath_sublist src.address d.entry).map _).nodup hwf.2
          have hnotm := removeSourcePath_not_mem src.address d.entry hwf.2
          exact destWF_insertAt _ _ _ hsub hnotm
    · cases hm : alistGet t.master f with
      | none =>
        rw [hm] at hnd
        simp at hnd
      | some tbl =>
        rw [hm] at hnd
        exact h (f, tbl) (alistGet_mem hm) nd hnd
  · exact h ft hft nd hnd

theorem remove_ribWF (t : Table) (f : Family) (net : Nlri) (src : Source)
    (h : ribWF t) : ribWF (t.remove f net src).2 := by
  cases hm : alistGet t.master f with
  | none =>
    simp only [Table.remove, hm]
    exact h
  | some tbl =>
    cases hn : alistGet tbl net with
    | none =>
      simp only [Table.remove, hm, hn]
      exact h
    | some d =>
      cases hr : removeSourcePath src.address d.entry with
      | mk l2 o =>
        cases o with
        | none =>
          simp only [Table.remove, hm, hn, hr]
          exact h
        | some i =>
          have hwf := destWF_of_mem t h hm hn
          have hsub : (l2.map fun p => p.source.address).Nodup := by
            have := ((removeSourcePath_sublist src.address d.entry).map
              (fun p => p.source.address)).nodup hwf.2
            rw [hr] at this
            exact this
          cases l2 with
          | nil =>
            simp only [Table.remove, hm, hn, hr]
            intro ft hft nd hnd
            rcases mem_alistSet hft with hft | hft
            · subst hft
              exact h (f, tbl) (alistGet_mem hm) nd (mem_alistErase hnd)
            · exact h ft hft nd hnd
          | cons hd2 rest =>
            have hmem : ∀ ft ∈ (t.remove f net src).2.master, ∀ nd ∈ ft.2, destWF nd.2 := by
              have hmaster : (t.remove f net src).2.master =
                  alistSet t.master f
                    (alistSet tbl net { d with entry := hd2 :: rest }) := by
                by_cases hi : i = 0 <;> simp [Table.remove, hm, hn, hr, hi]
              intro ft hft nd hnd
              rw [hmaster] at hft
              rcases mem_alistSet hft with hft | hft
              · subst hft
                rcases mem_alistSet hnd with hnd | hnd
                · subst hnd
                  exact ⟨by simp, hsub⟩
                · exact h (f, tbl) (alistGet_mem hm) nd hnd
              · exact h ft hft nd hnd
            exact hmem

theorem clearDest_cases (src : Source) (n : Nlri) (d : Destination) :
    ((removeSourcePath src.address d.entry).2 = none ∧ (clearDest src n d).1 = d) ∨
      (clearDest src n d).1.entry = (removeSourcePath src.address d.entry).1 := by
  unfold clearDest
  cases hr : removeSourcePath src.address d.entry with
  | mk l2 o =>
    cases o with
    | none => exact Or.inl ⟨rfl, rfl⟩
    | some i =>
      cases l2 with
      | nil => exact Or.inr rfl
      | cons hd rest => by_cases hi : i = 0 <;> simp [hi]

theorem clear_master (t : Table) (src : Source) :
    (t.clear src).2.master =
      t.master.map fun ft =>
        (ft.1,
          (ft.2.map fun nd => (nd.1, (clearDest src nd.1 nd.2).1)).filter
            fun nd => !nd.2.entry.isEmpty) := rfl

theorem clear_ribWF (t : Table) (src : Source) (h : ribWF t) :
    ribWF (t.clear src).2 := by
  intro ft hft nd hnd
  rw [clear_master] at hft
  rcases List.mem_map.mp hft with ⟨ft0, hft0, rfl⟩
  have hnd2 := List.mem_filter.mp hnd
  rcases List.mem_map.mp hnd2.1 with ⟨nd0, hnd0, rfl⟩
  have hwf := h ft0 hft0 nd0 hnd0
  refine ⟨?_, ?_⟩
  · intro he
    have hne := hnd2.2
    rw [he] at hne
    simp at hne
  · rcases clearDest_cases src nd0.1 nd0.2 with ⟨-, heq⟩ | heq
    · rw [heq]
      exact hwf.2
    · rw [heq]
      exact ((removeSourcePath_sublist src.address nd0.2.entry).map _).nodup hwf.2

/-- Apply-one-operation form of the destination invariant. -/
theorem applyOp_ribWF (t : Table) (op : RibOp) (h : ribWF t) : ribWF (applyOp t op) := by
  cases op with
  | ins f n s nh a => exact insert_ribWF t f n s nh a h
  | rem f n s => exact remove_ribWF t f n s h
  | clr s => exact clear_ribWF t s h

theorem foldl_ribWF (ops : List RibOp) (t : Table) (h : ribWF t) :
    ribWF (ops.foldl applyOp t) := by
  induction ops generalizing t with
  | nil => exact h
  | cons op rest ih => exact ih _ (applyOp_ribWF t op h)

/-- C5: every destination stored in the RIB has a non-empty entry list
with pairwise distinct source addresses; the invariant is preserved by
every Table::insert, Table::remove and Table::clear call, and therefore
holds after any sequence of such calls starting from Table::new. -/
theorem c5_destination_invariant :
    (∀ t op, ribWF t → ribWF (applyOp t op)) ∧ ∀ ops, ribWF (runOps ops) := by
  refine ⟨fun t op h => applyOp_ribWF t op h, fun ops => ?_⟩
  apply foldl_ribWF
  intro ft hft
  simp [Table.new] at hft

/-- Witness for C5: the invariant after a concrete operation sequence and
the preservation step at a concrete well-formed table. -/
theorem c5_witness :
    ribWF
        (applyOp (Table.new.insert Family.ipv4Uc exNet exSrc1 10 ⟨[]⟩).2
          (.ins Family.ipv4Uc exNet exSrc2 20 ⟨[.localPref 50]⟩)) ∧
      ribWF
        (runOps
          [.ins Family.ipv4Uc exNet exSrc1 10 ⟨[]⟩,
            .ins Family.ipv4Uc exNet exSrc2 20 ⟨[.localPref 50]⟩,
            .rem Family.ipv4Uc exNet exSrc1, .clr exSrc2]) :=
  ⟨c5_destination_invariant.1 _ _ (by decide), c5_destination_invariant.2 _⟩

/-! C8. Table::clear removes the cleared source's paths everywhere,
deletes emptied destinations, and emits updates in the nested iteration
order: families in table order, prefixes in per-family order. -/

/-- C8: Table::clear returns exactly the per-destination updates produced
by the first-phase walk, concatenated family by family in master order
with prefixes in per-family order (Withdrawn for a destination that
empties, NewBest of the new head when position 0 was vacated); afterwards
no stored path carries the cleared source address and no stored
destination is empty. -/
theorem c8_clear_characterization (t : Table) (src : Source) (hWF : ribWF t) :
    ((t.clear src).1 =
        t.master.flatMap fun ft => ft.2.filterMap fun nd => (clearDest src nd.1 nd.2).2)
  ∧ (∀ ft ∈ (t.clear src).2.master, ∀ nd ∈ ft.2,
        nd.2.entry ≠ [] ∧ ∀ p ∈ nd.2.entry, p.source.address ≠ src.address) := by
  refine ⟨rfl, ?_⟩
  intro ft hft nd hnd
  rw [clear_master] at hft
  rcases List.mem_map.mp hft with ⟨ft0, hft0, rfl⟩
  have hnd2 := List.mem_filter.mp hnd
  rcases List.mem_map.mp hnd2.1 with ⟨nd0, hnd0, rfl⟩
  have hwf := hWF ft0 hft0 nd0 hnd0
  refine ⟨?_, ?_⟩
  · intro he
    have hne := hnd2.2
    rw [he] at hne
    simp at hne
  · rcases clearDest_cases src nd0.1 nd0.2 with ⟨hnone, heq⟩ | heq
    · rw [heq]
      exact removeSourcePath_none_not_mem src.address nd0.2.entry hnone
    · rw [heq]
      intro p hp hpe
      have hnm := removeSourcePath_not_mem src.address nd0.2.entry hwf.2
      exact hnm (List.mem_map.mpr ⟨p, hp, hpe⟩)

/-- Witness for C8: clearing source 1 out of a two-family RIB holding a
shared-best destination and a solo destination. -/
theorem c8_witness :
    (((((Table.new.insert Family.ipv4Uc exNet exSrc2 20 ⟨[.localPref 150]⟩).2.insert
          Family.ipv4Uc exNet exSrc1 10 ⟨[.localPref 200]⟩).2.insert
          Family.ipv6Uc exNet6 exSrc1 11 ⟨[]⟩).2.clear exSrc1).1 =
        ((((Table.new.insert Family.ipv4Uc exNet exSrc2 20 ⟨[.localPref 150]⟩).2.insert
          Family.ipv4Uc exNet exSrc1 10 ⟨[.localPref 200]⟩).2.insert
          Family.ipv6Uc exNet6 exSrc1 11 ⟨[]⟩).2.master.flatMap fun ft =>
            ft.2.filterMap fun nd => (clearDest exSrc1 nd.1 nd.2).2)) ∧
      ∀ ft ∈ ((((Table.new.insert Family.ipv4Uc exNet exSrc2 20
            ⟨[.localPref 150]⟩).2.insert
          Family.ipv4Uc exNet exSrc1 10 ⟨[.localPref 200]⟩).2.insert
          Family.ipv6Uc exNet6 exSrc1 11 ⟨[]⟩).2.clear exSrc1).2.master,
        ∀ nd ∈ ft.2,
          nd.2.entry ≠ [] ∧ ∀ p ∈ nd.2.entry, p.source.address ≠ exSrc1.address :=
  have h := c8_clear_characterization
    ((((Table.new.insert Family.ipv4Uc exNet exSrc2 20 ⟨[.localPref 150]⟩).2.insert
        Family.ipv4Uc exNet exSrc1 10 ⟨[.localPref 200]⟩).2.insert
        Family.ipv6Uc exNet6 exSrc1 11 ⟨[]⟩).2) exSrc1 (by decide)
  ⟨h.1, h.2⟩

/-- Witness for C10 at a concrete path carrying only a LocalPref
attribute, against a path carrying Origin 2 and MED 7. -/
theorem c10_witness :
    ((Path.new exSrc1 0 ⟨[.localPref 5]⟩).attrs.entry.all (fun a => !isOriginA a) = true ∧
      (Path.new exSrc1 0 ⟨[.localPref 5]⟩).get_origin = 0) ∧
    ((Path.new exSrc1 0 ⟨[.localPref 5]⟩).attrs.entry.all (fun a => !isMedA a) = true ∧
      (Path.new exSrc1 0 ⟨[.localPref 5]⟩).get_med ≤
        (Path.new exSrc2 0 ⟨[.origin 2, .multiExitDesc 7]⟩).get_med) :=
  have h := c10_absent_origin_med_read_zero (Path.new exSrc1 0 ⟨[.localPref 5]⟩)
    (Path.new exSrc2 0 ⟨[.origin 2, .multiExitDesc 7]⟩)
  ⟨⟨by decide, (h.1 (by decide)).1⟩, ⟨by decide, (h.2 (by decide)).2⟩⟩

end RustyBgp
